import Mathlib

/-!
Verification of the core algorithms of the lime-elements repository:

* ErrorTreeSearch — the recursive validation-error lookup named findFirstError in
  src/components/form/widgets/code-editor.ts, modelled over a type of JavaScript
  runtime values (JsValue) so that its behaviour on malformed input (null, strings,
  arrays standing in place of objects) is captured faithfully.
* AddressListSplitter — the function splitEmailAddressList and its helper state
  machine (consumeEscaped, beginEscape, toggleQuote, adjustAngleDepth,
  isAddressSeparator, flush) in src/components/email-viewer/email-viewer.tsx.
* The header-rendering dispatch getHeaderValues of the same component.

JavaScript strings are modelled as Lean strings (scanned as lists of characters,
matching the for..of code-point iteration); the whitespace class of
String.prototype.trim is modelled by Char.isWhitespace; object key iteration
order is the order of the association list of a vobj node.
-/

/-- A JavaScript runtime value, as far as the error-tree search can observe it.
Object fields are listed in key-iteration order; JavaScript objects never hold
two fields of the same key. -/
inductive JsValue where
  | vnull
  | vundef
  | vbool (b : Bool)
  | vnum (n : Int)
  | vstr (s : String)
  | varr (elems : List JsValue)
  | vobj (fields : List (String × JsValue))

/-- JavaScript truthiness of a value (the test `if (value)`). -/
def jsTruthy : JsValue → Bool
  | .vnull => false
  | .vundef => false
  | .vbool b => b
  | .vnum n => n != 0
  | .vstr s => !s.isEmpty
  | .varr _ => true
  | .vobj _ => true

/-- Whether `typeof value === 'object'` holds: true for null, arrays and
plain objects, false for strings, numbers, booleans and undefined. -/
def jsTypeofObject : JsValue → Bool
  | .vnull => true
  | .varr _ => true
  | .vobj _ => true
  | _ => false

/-- Truthiness of the string-or-undefined result of a recursive call
(the test `if (found)` in the source). -/
def foundTruthy : Option JsValue → Bool
  | none => false
  | some v => jsTruthy v

mutual

/-- The function findFirstError of code-editor.ts.  The guard
`!schema || typeof schema !== 'object'` sends every value that is falsy or not
of object type to undefined (modelled as none); note that an array is truthy
and of object type, so it falls through to the key iteration, whose keys are
its indices.  If the node owns a reserved key __errors bound to an array with
at least one element, the first element is returned.  Otherwise the node's
keys are iterated in order, the reserved key is skipped, and each child that
is truthy and of object type is searched recursively, the first truthy result
being returned. -/
def findFirstError : JsValue → Option JsValue
  | .vobj fields =>
    match List.lookup "__errors" fields with
    | some (.varr (e :: _)) => some e
    | _ => searchChildren fields
  | .varr elems => searchElems elems
  | _ => none

/-- The key-iteration loop of findFirstError over an object's fields. -/
def searchChildren : List (String × JsValue) → Option JsValue
  | [] => none
  | (k, v) :: rest =>
    if k = "__errors" then searchChildren rest
    else if jsTruthy v && jsTypeofObject v then
      let found := findFirstError v
      if foundTruthy found then found else searchChildren rest
    else searchChildren rest

/-- The same iteration over an array's elements (Object.keys of an array yields
its index strings, none of which is the reserved key). -/
def searchElems : List JsValue → Option JsValue
  | [] => none
  | v :: rest =>
    if jsTruthy v && jsTypeofObject v then
      let found := findFirstError v
      if foundTruthy found then found else searchElems rest
    else searchElems rest

end

/-- Whether the reserved key of a field list is bound to a non-empty array:
the condition under which findFirstError answers locally. -/
def localHasError (fields : List (String × JsValue)) : Bool :=
  match List.lookup "__errors" fields with
  | some (.varr (_ :: _)) => true
  | _ => false

/-- Whether a list of values consists of non-empty strings — the shape of a
well-formed list of validation error messages. -/
def msgsOk : List JsValue → Bool
  | [] => true
  | .vstr m :: rest => !m.isEmpty && msgsOk rest
  | _ => false

/-- Whether the reserved key, when present, is bound to a well-formed message
array (possibly empty). -/
def errorsFieldOk (fields : List (String × JsValue)) : Bool :=
  match List.lookup "__errors" fields with
  | none => true
  | some (.varr es) => msgsOk es
  | some _ => false

/-- Whether a list of keys has no duplicate, as JavaScript object keys do. -/
def keysNodup : List String → Bool
  | [] => true
  | k :: rest => !rest.contains k && keysNodup rest

mutual

/-- A well-formed error tree, after the data model of the specification: a
mapping whose reserved key, if present, holds a sequence of non-empty
error-message strings, and whose other keys hold further error trees; keys
are pairwise distinct. -/
def isErrorTree : JsValue → Bool
  | .vobj fields =>
    keysNodup (fields.map Prod.fst) && errorsFieldOk fields &&
      childFieldsOk fields
  | _ => false

/-- All non-reserved fields of the list hold well-formed error trees. -/
def childFieldsOk : List (String × JsValue) → Bool
  | [] => true
  | (k, v) :: rest =>
    (if k = "__errors" then true else isErrorTree v) && childFieldsOk rest

end

mutual

/-- Whether an error tree contains any error message at any depth: a non-empty
reserved message array at this node, or one somewhere below a non-reserved
key. -/
def hasAnyError : JsValue → Bool
  | .vobj fields => localHasError fields || anyChildHasError fields
  | _ => false

/-- Whether some non-reserved field of the list contains an error. -/
def anyChildHasError : List (String × JsValue) → Bool
  | [] => false
  | (k, v) :: rest =>
    (decide (k ≠ "__errors") && hasAnyError v) || anyChildHasError rest

end

/-- Whether a value is a JavaScript array (the test Array.isArray). -/
def isJsArray : JsValue → Bool
  | .varr _ => true
  | _ => false

/-! ## The address-list splitter -/

/-- The mutable scanning state of splitEmailAddressList
(interface AddressListSplitState in email-viewer.tsx). -/
structure AddressListSplitState where
  inQuotes : Bool
  escapeNext : Bool
  angleDepth : Int

/-- The state at the start of a scan. -/
def initialSplitState : AddressListSplitState :=
  { inQuotes := false, escapeNext := false, angleDepth := 0 }

/-- Handler consumeEscaped: when the previous character began an escape, the
current character is taken verbatim and the escape flag cleared.  A returned
state means the handler fired (and the character is appended verbatim);
none means it declined. -/
def consumeEscaped (c : Char) (st : AddressListSplitState) :
    Option AddressListSplitState :=
  if !st.escapeNext then none
  else some { st with escapeNext := false }

/-- Handler beginEscape: a backslash inside a quoted run is appended and sets
the escape flag. -/
def beginEscape (c : Char) (st : AddressListSplitState) :
    Option AddressListSplitState :=
  if !st.inQuotes || c ≠ '\\' then none
  else some { st with escapeNext := true }

/-- Handler toggleQuote: a double quote outside every angle-bracket region is
appended and toggles the quote flag. -/
def toggleQuote (c : Char) (st : AddressListSplitState) :
    Option AddressListSplitState :=
  if c ≠ '"' || st.angleDepth ≠ 0 then none
  else some { st with inQuotes := !st.inQuotes }

/-- Handler adjustAngleDepth: outside quoted runs, an opening angle bracket is
appended and increments the depth; a closing one is appended and decrements
the depth only when the depth is non-zero. -/
def adjustAngleDepth (c : Char) (st : AddressListSplitState) :
    Option AddressListSplitState :=
  if st.inQuotes then none
  else if c = '<' then some { st with angleDepth := st.angleDepth + 1 }
  else if c ≠ '>' || st.angleDepth = 0 then none
  else some { st with angleDepth := st.angleDepth - 1 }

/-- Predicate isAddressSeparator: a comma outside quotes and outside every
angle-bracket region separates recipients. -/
def isAddressSeparator (c : Char) (st : AddressListSplitState) : Bool :=
  c = ',' && !st.inQuotes && st.angleDepth = 0

/-- The handler chain of the scan loop, in the source's order: consumeEscaped,
then beginEscape, then toggleQuote, then adjustAngleDepth; the first handler
that fires appends the character verbatim and yields the next state. -/
def tryHandlers (c : Char) (st : AddressListSplitState) :
    Option AddressListSplitState :=
  match consumeEscaped c st with
  | some st' => some st'
  | none =>
    match beginEscape c st with
    | some st' => some st'
    | none =>
      match toggleQuote c st with
      | some st' => some st'
      | none => adjustAngleDepth c st

/-- The whitespace test of String.prototype.trim, modelled by
Char.isWhitespace. -/
def isTrimmable (c : Char) : Bool := c.isWhitespace

/-- Both-ends trimming of a character list — the model of .trim(). -/
def trimChars (l : List Char) : List Char :=
  ((l.dropWhile isTrimmable).reverse.dropWhile isTrimmable).reverse

/-- String-level trimming — the model of String.prototype.trim. -/
def jsTrim (s : String) : String := String.mk (trimChars s.data)

/-- The helper flush of splitEmailAddressList: trim the current token and push
it when non-empty, then reset the token. -/
def flushChars (parts : List (List Char)) (current : List Char) :
    List (List Char) :=
  let trimmed := trimChars current
  if trimmed.isEmpty then parts else parts ++ [trimmed]

/-- One iteration of the scan loop of splitEmailAddressList: either a handler
fires and appends the character, or a separator comma flushes the current
token, or the character is appended by the default rule. -/
def splitStep (st : AddressListSplitState) (current : List Char)
    (parts : List (List Char)) (c : Char) :
    AddressListSplitState × List Char × List (List Char) :=
  match tryHandlers c st with
  | some st' => (st', current ++ [c], parts)
  | none =>
    if isAddressSeparator c st then (st, [], flushChars parts current)
    else (st, current ++ [c], parts)

/-- The scan loop of splitEmailAddressList, followed by the final flush. -/
def splitScan (st : AddressListSplitState) (current : List Char)
    (parts : List (List Char)) : List Char → List (List Char)
  | [] => flushChars parts current
  | c :: rest =>
    match splitStep st current parts c with
    | (st', current', parts') => splitScan st' current' parts' rest

/-- The function splitEmailAddressList of email-viewer.tsx. -/
def splitEmailAddressList (value : String) : List String :=
  (splitScan initialSplitState [] [] value.data).map String.mk

/-! ## The header-rendering dispatch -/

/-- The header kinds accepted by renderEmailHeader / getHeaderValues. -/
inductive HeaderType where
  | subject
  | fromHeader
  | toHeader
  | cc
  | date
deriving DecidableEq

/-- The method getHeaderValues of the email viewer: recipient-list headers
(To and Cc) are split; every other header is rendered as the single raw
value. -/
def getHeaderValues (type : HeaderType) (value : String) : List String :=
  if type = .toHeader ∨ type = .cc then splitEmailAddressList value
  else [value]

/-! ## Theorems -/

/-- C3: whenever a node binds the reserved key __errors to a non-empty
sequence, findFirstError returns the first element of that sequence; since the
remaining fields are universally quantified, no child subtree influences the
result, even when children also contain errors. -/
theorem c3_local_error_precedence (fields : List (String × JsValue))
    (e : JsValue) (es : List JsValue)
    (h : List.lookup "__errors" fields = some (.varr (e :: es))) :
    findFirstError (.vobj fields) = some e := by
  simp [findFirstError, h]

/-- Witness for C3 at the specification's ninth test vector: a top-level
message wins over the nested one. -/
theorem c3_local_error_precedence_witness :
    findFirstError (.vobj [("__errors", .varr [.vstr "Top"]),
      ("a", .vobj [("__errors", .varr [.vstr "Nested"])])]) =
      some (.vstr "Top") :=
  c3_local_error_precedence _ (.vstr "Top") [] rfl

/-- C2 counterexample: an array standing in place of an object is NOT answered
with the no-error result; findFirstError descends into its elements and
returns the nested message, contradicting the claim that every non-mapping
input yields no error found. -/
theorem c2_array_is_descended_into :
    findFirstError (.varr [.vobj [("__errors", .varr [.vstr "X"])]]) =
        some (.vstr "X") ∧
      findFirstError (.varr [.vobj [("__errors", .varr [.vstr "X"])]]) ≠
        none := by
  have h1 : findFirstError
      (.varr [.vobj [("__errors", .varr [.vstr "X"])]]) = some (.vstr "X") :=
    rfl
  exact ⟨h1, by simp [h1]⟩

/-- C2 amended: findFirstError returns the no-error result (undefined) for
every input that is null or not of object type — strings, numbers, booleans
and undefined — without descending into it; an array, however, passes the
object-type guard and is searched like an object. -/
theorem c2_non_object_yields_none (v : JsValue)
    (h : jsTypeofObject v = false ∨ v = .vnull) :
    findFirstError v = none := by
  rcases h with h | h
  · cases v <;> simp_all [jsTypeofObject, findFirstError]
  · subst h; rfl

/-- Witness for C2 amended at the specification's own test value, the string
standing in place of an object. -/
theorem c2_non_object_yields_none_witness :
    findFirstError (.vstr "not an object") = none :=
  c2_non_object_yields_none (.vstr "not an object") (Or.inl rfl)

/-- C9: getHeaderValues applies splitEmailAddressList exactly to the To and Cc
header kinds, and renders every other kind as the one-element sequence holding
the raw value unchanged. -/
theorem c9_header_dispatch (type : HeaderType) (value : String)
    (hv : value ≠ "") :
    ((type = .toHeader ∨ type = .cc) →
        getHeaderValues type value = splitEmailAddressList value) ∧
      ((type ≠ .toHeader ∧ type ≠ .cc) →
        getHeaderValues type value = [value]) := by
  cases type <;> simp [getHeaderValues]

/-- Witness for C9 at the To kind with a concrete non-empty header value. -/
theorem c9_header_dispatch_witness :
    getHeaderValues .toHeader "a@b, c@d" =
      splitEmailAddressList "a@b, c@d" :=
  (c9_header_dispatch .toHeader "a@b, c@d" (by decide)).1 (Or.inl rfl)

/-- C6: a closing angle bracket scanned at depth zero, outside quotes and not
escaped, falls through every handler and the separator test: it is appended
verbatim and the whole state is unchanged, so the depth is in particular never
pushed below zero; and the spec's example splits as stated. -/
theorem c6_stray_closing_bracket (st : AddressListSplitState)
    (current : List Char) (parts : List (List Char))
    (h1 : st.escapeNext = false) (h2 : st.inQuotes = false)
    (h3 : st.angleDepth = 0) :
    splitStep st current parts '>' = (st, current ++ ['>'], parts) ∧
      splitEmailAddressList "a>b,c" = ["a>b", "c"] := by
  have hq : ('>' : Char) ≠ '"' := by decide
  have hc : ('>' : Char) ≠ ',' := by decide
  have hl : ('>' : Char) ≠ '<' := by decide
  constructor
  · simp [splitStep, tryHandlers, consumeEscaped, beginEscape, toggleQuote,
      adjustAngleDepth, isAddressSeparator, h1, h2, h3, hq, hc, hl]
  · decide

/-- Witness for C6 at the initial state. -/
theorem c6_stray_closing_bracket_witness :
    splitStep initialSplitState [] [] '>' = (initialSplitState, ['>'], []) ∧
      splitEmailAddressList "a>b,c" = ["a>b", "c"] :=
  c6_stray_closing_bracket initialSplitState [] [] rfl rfl rfl

/-- The key-iteration loop never looks at a field whose key is the reserved
one, so deleting all such fields leaves its result unchanged. -/
theorem searchChildren_filter_reserved (fields : List (String × JsValue)) :
    searchChildren (fields.filter (fun p => p.1 != "__errors")) =
      searchChildren fields := by
  induction fields with
  | nil => rfl
  | cons p rest ih =>
    obtain ⟨k, v⟩ := p
    by_cases hk : k = "__errors"
    · simp [searchChildren, hk, List.filter_cons, ih]
    · simp [searchChildren, hk, List.filter_cons, ih]

/-- After deleting the reserved fields, the reserved key is no longer found. -/
theorem lookup_filter_reserved (fields : List (String × JsValue)) :
    List.lookup "__errors" (fields.filter (fun p => p.1 != "__errors")) =
      none := by
  induction fields with
  | nil => rfl
  | cons p rest ih =>
    obtain ⟨k, v⟩ := p
    by_cases hk : k = "__errors"
    · simpa [List.filter_cons, hk] using ih
    · have hbe : ("__errors" == k) = false := by
        rw [beq_eq_false_iff_ne]
        exact fun hh => hk hh.symm
      simp [List.filter_cons, hk, List.lookup, hbe, ih]

/-- C10: when the reserved key is bound to a value that is not an array, the
node neither returns it nor recurses into it; the search behaves as if the
reserved key were absent altogether. -/
theorem c10_non_array_reserved_key_skipped (fields : List (String × JsValue))
    (v : JsValue) (h : List.lookup "__errors" fields = some v)
    (hv : isJsArray v = false) :
    findFirstError (.vobj fields) =
      findFirstError (.vobj (fields.filter (fun p => p.1 != "__errors"))) := by
  have hrhs : findFirstError
      (.vobj (fields.filter (fun p => p.1 != "__errors"))) =
      searchChildren (fields.filter (fun p => p.1 != "__errors")) := by
    simp [findFirstError, lookup_filter_reserved]
  rw [hrhs, searchChildren_filter_reserved]
  cases v with
  | varr es => simp [isJsArray] at hv
  | vnull => simp [findFirstError, h]
  | vundef => simp [findFirstError, h]
  | vbool b => simp [findFirstError, h]
  | vnum n => simp [findFirstError, h]
  | vstr s => simp [findFirstError, h]
  | vobj fs => simp [findFirstError, h]

/-- Witness for C10 at the example input: the reserved key bound to a bare
string is ignored and the sibling's nested message is found. -/
theorem c10_non_array_reserved_key_skipped_witness :
    (findFirstError (.vobj [("__errors", .vstr "oops"),
        ("a", .vobj [("__errors", .varr [.vstr "X"])])]) =
      findFirstError (.vobj ([("__errors", .vstr "oops"),
        ("a", .vobj [("__errors", .varr [.vstr "X"])])].filter
          (fun p => p.1 != "__errors")))) ∧
    findFirstError (.vobj [("__errors", .vstr "oops"),
        ("a", .vobj [("__errors", .varr [.vstr "X"])])]) = some (.vstr "X") :=
  ⟨c10_non_array_reserved_key_skipped _ (.vstr "oops") rfl rfl, rfl⟩

/-- A character that is none of the five special ones leaves the initial state
unchanged and is appended to the current token. -/
theorem splitStep_plain (c : Char) (current : List Char)
    (parts : List (List Char))
    (h : c ≠ ',' ∧ c ≠ '"' ∧ c ≠ '<' ∧ c ≠ '>' ∧ c ≠ '\\') :
    splitStep initialSplitState current parts c =
      (initialSplitState, current ++ [c], parts) := by
  obtain ⟨h1, h2, h3, h4, h5⟩ := h
  simp [splitStep, tryHandlers, consumeEscaped, beginEscape, toggleQuote,
    adjustAngleDepth, isAddressSeparator, initialSplitState, h1, h2, h3, h4,
    h5]

/-- Scanning special-free input from the initial state accumulates every
character into one token and ends in the final flush. -/
theorem splitScan_plain (l : List Char) :
    ∀ current parts,
      (∀ c ∈ l, c ≠ ',' ∧ c ≠ '"' ∧ c ≠ '<' ∧ c ≠ '>' ∧ c ≠ '\\') →
      splitScan initialSplitState current parts l =
        flushChars parts (current ++ l) := by
  induction l with
  | nil => intro current parts _; simp [splitScan]
  | cons c rest ih =>
    intro current parts h
    rw [splitScan, splitStep_plain c current parts (h c (by simp))]
    show splitScan initialSplitState (current ++ [c]) parts rest = _
    rw [ih (current ++ [c]) parts (fun d hd => h d (by simp [hd]))]
    simp

/-- C4: on a string containing no comma, double quote, angle bracket or
backslash, the splitter returns the singleton list holding the trimmed string
when that trim is non-empty, and the empty list otherwise. -/
theorem c4_no_special_characters (s : String)
    (h : ∀ c ∈ s.data, c ≠ ',' ∧ c ≠ '"' ∧ c ≠ '<' ∧ c ≠ '>' ∧ c ≠ '\\') :
    splitEmailAddressList s = if jsTrim s = "" then [] else [jsTrim s] := by
  unfold splitEmailAddressList
  rw [splitScan_plain s.data [] [] h]
  simp only [List.nil_append, flushChars, jsTrim]
  by_cases he : trimChars s.data = []
  · simp [he]
  · have hmk : String.mk (trimChars s.data) ≠ "" := by
      intro hc
      exact he (by simpa using congrArg String.data hc)
    simp [List.isEmpty_iff, he, hmk]

/-- Witness for C4 at the empty string: the fifth test vector of the
specification. -/
theorem c4_no_special_characters_witness : splitEmailAddressList "" = [] := by
  have h := c4_no_special_characters "" (by decide)
  simpa using h

/-- Trimming only removes characters. -/
theorem trimChars_sublist (l : List Char) : (trimChars l).Sublist l := by
  unfold trimChars
  have h2 : ((l.dropWhile isTrimmable).reverse.dropWhile isTrimmable).Sublist
      (l.dropWhile isTrimmable).reverse := List.dropWhile_sublist _
  have h3 := h2.reverse
  rw [List.reverse_reverse] at h3
  exact h3.trans (List.dropWhile_sublist _)

/-- A suffix inherits the last element. -/
theorem getLast?_of_suffix {s y : List Char} (h : s <:+ y) (c : Char)
    (hc : s.getLast? = some c) : y.getLast? = some c := by
  obtain ⟨t, rfl⟩ := h
  simp [List.getLast?_append, hc]

/-- The first character of a trimmed list is not whitespace. -/
theorem head?_trimChars (l : List Char) (c : Char)
    (h : (trimChars l).head? = some c) : isTrimmable c = false := by
  unfold trimChars at h
  rw [List.head?_reverse] at h
  have h2 := getLast?_of_suffix (List.dropWhile_suffix isTrimmable) c h
  rw [List.getLast?_reverse] at h2
  have h3 := List.head?_dropWhile_not isTrimmable l
  rw [h2] at h3
  exact h3

/-- The last character of a trimmed list is not whitespace. -/
theorem getLast?_trimChars (l : List Char) (c : Char)
    (h : (trimChars l).getLast? = some c) : isTrimmable c = false := by
  unfold trimChars at h
  rw [List.getLast?_reverse] at h
  have h3 :=
    List.head?_dropWhile_not isTrimmable (l.dropWhile isTrimmable).reverse
  rw [h] at h3
  exact h3

/-- A list with no whitespace at either end is already trimmed. -/
theorem trimChars_eq_self (l : List Char)
    (h1 : ∀ c, l.head? = some c → isTrimmable c = false)
    (h2 : ∀ c, l.getLast? = some c → isTrimmable c = false) :
    trimChars l = l := by
  have e1 : l.dropWhile isTrimmable = l := by
    cases l with
    | nil => rfl
    | cons a t => rw [List.dropWhile_cons, h1 a rfl]; simp
  have e2 : l.reverse.dropWhile isTrimmable = l.reverse := by
    cases hr : l.reverse with
    | nil => rfl
    | cons a t =>
      have ha : l.getLast? = some a := by
        rw [← List.head?_reverse, hr]; rfl
      rw [List.dropWhile_cons, h2 a ha]; simp
  unfold trimChars
  rw [e1, e2, List.reverse_reverse]

/-- Trimming is idempotent. -/
theorem trimChars_idem (l : List Char) :
    trimChars (trimChars l) = trimChars l :=
  trimChars_eq_self _ (head?_trimChars l) (getLast?_trimChars l)

/-- Every element produced by the flush step is trimmed and non-empty,
provided the previously pushed elements are. -/
theorem flushChars_mem (parts : List (List Char)) (current : List Char)
    (hp : ∀ q ∈ parts, trimChars q = q ∧ q ≠ [])
    (q : List Char) (hq : q ∈ flushChars parts current) :
    trimChars q = q ∧ q ≠ [] := by
  simp only [flushChars] at hq
  split at hq
  · exact hp q hq
  · rename_i hne
    rw [List.mem_append] at hq
    rcases hq with hq | hq
    · exact hp q hq
    · rw [List.mem_singleton] at hq
      subst hq
      refine ⟨trimChars_idem current, ?_⟩
      intro hnil
      rw [hnil] at hne
      simp at hne

/-- Each scan step either appends the character to the current token, keeping
the state returned by the handler chain, or — on a separator — resets the
token and flushes it. -/
theorem splitStep_cases (st : AddressListSplitState) (current : List Char)
    (parts : List (List Char)) (c : Char) :
    splitStep st current parts c =
        ((tryHandlers c st).getD st, current ++ [c], parts) ∨
      (c = ',' ∧
        splitStep st current parts c = (st, [], flushChars parts current)) := by
  unfold splitStep
  cases h : tryHandlers c st with
  | some st' => left; simp
  | none =>
    by_cases hs : isAddressSeparator c st
    · right
      refine ⟨?_, by simp [hs]⟩
      simp [isAddressSeparator] at hs
      exact hs.1.1
    · left; simp [hs]

/-- Along the whole scan, the accumulated result only ever holds trimmed,
non-empty tokens. -/
theorem splitScan_mem_trimmed (l : List Char) :
    ∀ st current parts,
      (∀ q ∈ parts, trimChars q = q ∧ q ≠ []) →
      ∀ q ∈ splitScan st current parts l, trimChars q = q ∧ q ≠ [] := by
  induction l with
  | nil =>
    intro st current parts hp q hq
    exact flushChars_mem parts current hp q hq
  | cons c rest ih =>
    intro st current parts hp q hq
    rw [splitScan] at hq
    rcases splitStep_cases st current parts c with h | ⟨-, h⟩ <;> rw [h] at hq
    · exact ih _ _ _ hp q hq
    · exact ih _ _ _ (fun r hr => flushChars_mem parts current hp r hr) q hq

/-- C7: every element of the splitter's output is a non-empty string equal to
its own trim, and whitespace-only tokens between separators are dropped, as on
the specification's example. -/
theorem c7_output_elements_trimmed_nonempty (s p : String)
    (hp : p ∈ splitEmailAddressList s) :
    (p ≠ "" ∧ jsTrim p = p) ∧
      splitEmailAddressList "a,b,,c" = ["a", "b", "c"] := by
  refine ⟨?_, by decide⟩
  unfold splitEmailAddressList at hp
  rw [List.mem_map] at hp
  obtain ⟨q, hq, rfl⟩ := hp
  have h := splitScan_mem_trimmed s.data initialSplitState [] []
    (by intro q hq; simp at hq) q hq
  constructor
  · intro hc
    exact h.2 (by simpa using congrArg String.data hc)
  · show jsTrim (String.mk q) = String.mk q
    unfold jsTrim
    rw [show (String.mk q).data = q from rfl, h.1]

/-- Witness for C7 at the first element of the example input. -/
theorem c7_output_elements_trimmed_nonempty_witness :
    (("a" : String) ≠ "" ∧ jsTrim "a" = "a") ∧
      splitEmailAddressList "a,b,,c" = ["a", "b", "c"] :=
  c7_output_elements_trimmed_nonempty "a,b,,c" "a" (by decide)

/-- Interleave a single comma between consecutive chunks. -/
def joinWithComma : List (List Char) → List Char
  | [] => []
  | [chunk] => chunk
  | chunk :: rest => chunk ++ ',' :: joinWithComma rest

/-- Unfolding of joinWithComma at a cons with a non-empty tail. -/
theorem joinWithComma_cons (a : List Char) (rest : List (List Char))
    (h : rest ≠ []) :
    joinWithComma (a :: rest) = a ++ ',' :: joinWithComma rest := by
  cases rest with
  | nil => exact absurd rfl h
  | cons b t => rfl

/-- The scan cuts its input at the separator commas: the input is the
comma-interleaving of a list of chunks, and the output consists of exactly
the trims of those chunks, the whitespace-only ones dropped. -/
theorem splitScan_chunks (l : List Char) :
    ∀ st current parts, ∃ chunks : List (List Char), chunks ≠ [] ∧
      current ++ l = joinWithComma chunks ∧
      splitScan st current parts l =
        parts ++ (chunks.map trimChars).filter (fun t => !t.isEmpty) := by
  induction l with
  | nil =>
    intro st current parts
    refine ⟨[current], by simp, by simp [joinWithComma], ?_⟩
    rw [splitScan]
    by_cases he : (trimChars current).isEmpty <;>
      simp [flushChars, List.filter_cons, he]
  | cons c rest ih =>
    intro st current parts
    rw [splitScan]
    rcases splitStep_cases st current parts c with h | ⟨hc, h⟩ <;> rw [h]
    · obtain ⟨chunks, hne, heq, hscan⟩ :=
        ih ((tryHandlers c st).getD st) (current ++ [c]) parts
      refine ⟨chunks, hne, ?_, hscan⟩
      rw [← heq]
      simp
    · obtain ⟨chunks, hne, heq, hscan⟩ := ih st [] (flushChars parts current)
      refine ⟨current :: chunks, by simp, ?_, ?_⟩
      · rw [joinWithComma_cons current chunks hne, ← heq]
        simp [hc]
      · show splitScan st [] (flushChars parts current) rest = _
        rw [hscan]
        by_cases he : (trimChars current).isEmpty <;>
          simp [flushChars, List.filter_cons, he]

/-- Dropping the empty lists does not change a concatenation. -/
theorem flatten_filter_nonempty (xs : List (List Char)) :
    ((xs.filter (fun t => !t.isEmpty)).flatten) = xs.flatten := by
  induction xs with
  | nil => rfl
  | cons a rest ih =>
    by_cases he : a.isEmpty
    · have ha : a = [] := List.isEmpty_iff.mp he
      simp [List.filter_cons, he, ha, ih]
    · simp [List.filter_cons, he, ih]

/-- The concatenation of the trimmed chunks is a subsequence of the
comma-interleaving of the chunks themselves. -/
theorem flatten_trims_sublist (chunks : List (List Char)) :
    ((chunks.map trimChars).flatten).Sublist (joinWithComma chunks) := by
  induction chunks with
  | nil => simp [joinWithComma]
  | cons a rest ih =>
    cases rest with
    | nil => simp [joinWithComma, trimChars_sublist]
    | cons b t =>
      rw [joinWithComma_cons a (b :: t) (by simp), List.map_cons,
        List.flatten_cons]
      exact List.Sublist.append (trimChars_sublist a)
        (ih.trans (List.sublist_cons_self ',' _))

/-- The concatenation of the kept trimmed chunks is a subsequence of the
comma-interleaving of all the chunks. -/
theorem flatten_filtered_trims_sublist (chunks : List (List Char)) :
    (((chunks.map trimChars).filter (fun t => !t.isEmpty)).flatten).Sublist
      (joinWithComma chunks) := by
  rw [flatten_filter_nonempty]
  exact flatten_trims_sublist chunks

/-- C5: the splitter never drops literal content other than the separator
commas and whitespace trimmed at token boundaries: the input decomposes into
chunks interleaved with the separator commas, the output is exactly the list
of the non-whitespace-only trims of those chunks in order, and consequently
the concatenation of the output elements is a subsequence of the input. -/
theorem c5_no_content_loss (s : String) :
    ∃ chunks : List (List Char),
      s.data = joinWithComma chunks ∧
      splitEmailAddressList s =
        ((chunks.map trimChars).filter (fun t => !t.isEmpty)).map
          String.mk ∧
      ((splitEmailAddressList s).map String.data).flatten.Sublist s.data := by
  obtain ⟨chunks, hne, heq, hscan⟩ :=
    splitScan_chunks s.data initialSplitState [] []
  rw [List.nil_append] at heq
  refine ⟨chunks, heq, ?_, ?_⟩
  · unfold splitEmailAddressList
    rw [hscan]
    simp
  · unfold splitEmailAddressList
    rw [hscan, List.nil_append, List.map_map]
    rw [show String.data ∘ String.mk = id from rfl, List.map_id, heq]
    exact flatten_filtered_trims_sublist chunks

/-- The state component of a scan step is what the handler chain yields; the
separator rule and the default append leave the state unchanged. -/
theorem splitStep_state (st : AddressListSplitState) (current : List Char)
    (parts : List (List Char)) (c : Char) :
    (splitStep st current parts c).1 = (tryHandlers c st).getD st := by
  unfold splitStep
  cases h : tryHandlers c st with
  | some st' => simp
  | none => by_cases hs : isAddressSeparator c st <;> simp [hs]

/-- The state invariant of the splitter scan: the bracket depth is never
negative, quoted runs only exist at depth zero, and a pending escape only
exists inside a quoted run. -/
def SplitInv (st : AddressListSplitState) : Prop :=
  0 ≤ st.angleDepth ∧ (st.inQuotes = true → st.angleDepth = 0) ∧
    (st.escapeNext = true → st.inQuotes = true)

/-- C8: one scan step preserves the state invariant (which holds at the
initial state, hence at every reachable state); the bracket depth never
changes while inside a quoted run; the quote flag only toggles at depth zero;
and the escape flag is only freshly set while inside a quoted run. -/
theorem c8_scan_invariants (st : AddressListSplitState) (c : Char)
    (current : List Char) (parts : List (List Char)) (h : SplitInv st) :
    SplitInv (splitStep st current parts c).1 ∧
      (st.inQuotes = true →
        (splitStep st current parts c).1.angleDepth = st.angleDepth) ∧
      ((splitStep st current parts c).1.inQuotes ≠ st.inQuotes →
        st.angleDepth = 0) ∧
      ((splitStep st current parts c).1.escapeNext = true →
        st.escapeNext = false → st.inQuotes = true) ∧
      SplitInv initialSplitState := by
  obtain ⟨hd, hq, he⟩ := h
  rw [splitStep_state]
  cases hesc : st.escapeNext <;> cases hinq : st.inQuotes <;>
    by_cases hbs : c = '\\' <;> by_cases hdq : c = '"' <;>
    by_cases hlt : c = '<' <;> by_cases hgt : c = '>' <;>
    by_cases hz : st.angleDepth = 0 <;>
    simp_all [tryHandlers, consumeEscaped, beginEscape, toggleQuote,
      adjustAngleDepth, SplitInv, initialSplitState] <;>
    omega

/-- A non-empty string is truthy. -/
theorem not_isEmpty_of_ne (s : String) (h : s ≠ "") : (!s.isEmpty) = true := by
  rw [Bool.not_eq_true']
  rw [← Bool.not_eq_true, String.isEmpty_iff]
  exact h

/-- A well-formed error tree is an object node. -/
theorem isErrorTree_vobj (v : JsValue) (h : isErrorTree v = true) :
    ∃ fs, v = .vobj fs := by
  cases v <;> first
    | exact ⟨_, rfl⟩
    | simp [isErrorTree] at h

/-- The three components of well-formedness of an object node. -/
theorem isErrorTree_parts (fields : List (String × JsValue))
    (h : isErrorTree (.vobj fields) = true) :
    keysNodup (fields.map Prod.fst) = true ∧ errorsFieldOk fields = true ∧
      childFieldsOk fields = true := by
  simp [isErrorTree] at h
  exact ⟨h.1.1, h.1.2, h.2⟩

/-- Field well-formedness distributes over concatenation. -/
theorem childFieldsOk_append (l₁ l₂ : List (String × JsValue)) :
    childFieldsOk (l₁ ++ l₂) = (childFieldsOk l₁ && childFieldsOk l₂) := by
  induction l₁ with
  | nil => simp [childFieldsOk]
  | cons p t ih =>
    obtain ⟨k, v⟩ := p
    simp [childFieldsOk, ih, Bool.and_assoc]

/-- The head of a well-formed message list is a non-empty string. -/
theorem msgsOk_head (e : JsValue) (rest : List JsValue)
    (h : msgsOk (e :: rest) = true) : ∃ m : String, e = .vstr m ∧ m ≠ "" := by
  cases e with
  | vstr s =>
    have hs : (!s.isEmpty && msgsOk rest) = true := h
    rcases Bool.and_eq_true_iff.mp hs with ⟨h1, -⟩
    refine ⟨s, rfl, ?_⟩
    intro he
    rw [he] at h1
    exact absurd h1 (by decide)
  | vnull => simp [msgsOk] at h
  | vundef => simp [msgsOk] at h
  | vbool b => simp [msgsOk] at h
  | vnum n => simp [msgsOk] at h
  | varr es => simp [msgsOk] at h
  | vobj fs => simp [msgsOk] at h

mutual

/-- On a well-formed error tree, findFirstError answers some non-empty
message exactly when the tree contains an error message somewhere, and
answers none otherwise. -/
theorem findFirstError_tree_spec (t : JsValue) (h : isErrorTree t = true) :
    (hasAnyError t = true ∧
        ∃ m : String, findFirstError t = some (.vstr m) ∧ m ≠ "") ∨
      (hasAnyError t = false ∧ findFirstError t = none) := by
  obtain ⟨fields, rfl⟩ := isErrorTree_vobj t h
  obtain ⟨-, hef, hcf⟩ := isErrorTree_parts fields h
  cases hloc : List.lookup "__errors" fields with
  | none =>
    rcases searchChildren_tree_spec fields hcf with ⟨ha, m, hm, hne⟩ |
        ⟨ha, hm⟩
    · left
      exact ⟨by simp [hasAnyError, localHasError, hloc, ha], m,
        by simp [findFirstError, hloc, hm], hne⟩
    · right
      exact ⟨by simp [hasAnyError, localHasError, hloc, ha],
        by simp [findFirstError, hloc, hm]⟩
  | some v =>
    have hva : ∃ es, v = .varr es := by
      unfold errorsFieldOk at hef
      rw [hloc] at hef
      cases v <;> simp at hef
      exact ⟨_, rfl⟩
    obtain ⟨es, rfl⟩ := hva
    have hmsgs : msgsOk es = true := by
      unfold errorsFieldOk at hef
      rw [hloc] at hef
      exact hef
    cases es with
    | nil =>
      rcases searchChildren_tree_spec fields hcf with ⟨ha, m, hm, hne⟩ |
          ⟨ha, hm⟩
      · left
        exact ⟨by simp [hasAnyError, localHasError, hloc, ha], m,
          by simp [findFirstError, hloc, hm], hne⟩
      · right
        exact ⟨by simp [hasAnyError, localHasError, hloc, ha],
          by simp [findFirstError, hloc, hm]⟩
    | cons e es' =>
      obtain ⟨m, rfl, hne⟩ := msgsOk_head e es' hmsgs
      left
      exact ⟨by simp [hasAnyError, localHasError, hloc], m,
        by simp [findFirstError, hloc], hne⟩

/-- The child-iteration analogue of the previous statement. -/
theorem searchChildren_tree_spec (fields : List (String × JsValue))
    (h : childFieldsOk fields = true) :
    (anyChildHasError fields = true ∧
        ∃ m : String, searchChildren fields = some (.vstr m) ∧ m ≠ "") ∨
      (anyChildHasError fields = false ∧ searchChildren fields = none) := by
  match fields with
  | [] => right; exact ⟨rfl, rfl⟩
  | (k, v) :: rest =>
    by_cases hk : k = "__errors"
    · have hrest : childFieldsOk rest = true := by
        simp [childFieldsOk, hk] at h
        exact h
      rcases searchChildren_tree_spec rest hrest with ⟨ha, m, hm, hne⟩ |
          ⟨ha, hm⟩
      · left
        exact ⟨by simp [anyChildHasError, hk, ha], m,
          by simp [searchChildren, hk, hm], hne⟩
      · right
        exact ⟨by simp [anyChildHasError, hk, ha],
          by simp [searchChildren, hk, hm]⟩
    · have hparts : isErrorTree v = true ∧ childFieldsOk rest = true := by
        simp [childFieldsOk, hk] at h
        exact h
      obtain ⟨fs, rfl⟩ := isErrorTree_vobj v hparts.1
      rcases findFirstError_tree_spec (.vobj fs) hparts.1 with
          ⟨ha1, m1, hm1, hne1⟩ | ⟨ha1, hm1⟩
      · left
        refine ⟨by simp [anyChildHasError, hk, ha1], m1, ?_, hne1⟩
        have htr : foundTruthy (some (JsValue.vstr m1)) = true := by
          simpa [foundTruthy, jsTruthy] using not_isEmpty_of_ne m1 hne1
        simp [searchChildren, hk, jsTruthy, jsTypeofObject, hm1, htr]
      · rcases searchChildren_tree_spec rest hparts.2 with
            ⟨ha2, m2, hm2, hne2⟩ | ⟨ha2, hm2⟩
        · left
          exact ⟨by simp [anyChildHasError, hk, ha1, ha2], m2,
            by simp [searchChildren, hk, jsTruthy, jsTypeofObject, hm1,
              foundTruthy, hm2], hne2⟩
        · right
          exact ⟨by simp [anyChildHasError, hk, ha1, ha2],
            by simp [searchChildren, hk, jsTruthy, jsTypeofObject, hm1,
              foundTruthy, hm2]⟩

end

/-- Error-free well-formed children at the front of the iteration are passed
over without affecting the result. -/
theorem searchChildren_skip (pre : List (String × JsValue)) :
    ∀ rest, childFieldsOk pre = true →
      (∀ p ∈ pre, p.1 ≠ "__errors" → hasAnyError p.2 = false) →
      searchChildren (pre ++ rest) = searchChildren rest := by
  induction pre with
  | nil => intro rest _ _; rfl
  | cons p pre' ih =>
    intro rest hok hpre
    obtain ⟨k, v⟩ := p
    by_cases hk : k = "__errors"
    · rw [List.cons_append]
      have hok' : childFieldsOk pre' = true := by
        simp [childFieldsOk, hk] at hok
        exact hok
      have hstep : searchChildren ((k, v) :: (pre' ++ rest)) =
          searchChildren (pre' ++ rest) := by
        simp [searchChildren, hk]
      rw [hstep]
      exact ih rest hok' (fun q hq hq1 => hpre q (by simp [hq]) hq1)
    · have hparts : isErrorTree v = true ∧ childFieldsOk pre' = true := by
        simp [childFieldsOk, hk] at hok
        exact hok
      have hna : hasAnyError v = false := hpre (k, v) (by simp) hk
      obtain ⟨fs, rfl⟩ := isErrorTree_vobj v hparts.1
      rcases findFirstError_tree_spec (.vobj fs) hparts.1 with
          ⟨ha, -, -, -⟩ | ⟨-, hm⟩
      · rw [ha] at hna
        cases hna
      · rw [List.cons_append]
        have hstep : searchChildren ((k, .vobj fs) :: (pre' ++ rest)) =
            searchChildren (pre' ++ rest) := by
          simp [searchChildren, hk, jsTruthy, jsTypeofObject, hm, foundTruthy]
        rw [hstep]
        exact ih rest hparts.2 (fun q hq hq1 => hpre q (by simp [hq]) hq1)

/-- C1: at a node with no local errors (reserved key absent or bound to an
empty sequence), the search returns the result found inside the first child,
in key-iteration order, that contains any error message at any depth —
regardless of how deeply that message is nested — and that result is an
error, not the no-error answer; later siblings are never the source of the
answer when an earlier sibling contains an error. -/
theorem c1_first_erroring_child_wins
    (fields pre post : List (String × JsValue)) (k : String) (c : JsValue)
    (htree : isErrorTree (.vobj fields) = true)
    (hlocal : List.lookup "__errors" fields = none ∨
      List.lookup "__errors" fields = some (.varr []))
    (hfields : fields = pre ++ (k, c) :: post)
    (hk : k ≠ "__errors")
    (hc : hasAnyError c = true)
    (hpre : ∀ p ∈ pre, p.1 ≠ "__errors" → hasAnyError p.2 = false) :
    findFirstError (.vobj fields) = findFirstError c ∧
      findFirstError c ≠ none := by
  obtain ⟨-, -, hcf⟩ := isErrorTree_parts fields htree
  have h1 : findFirstError (.vobj fields) = searchChildren fields := by
    rcases hlocal with hl | hl <;> simp [findFirstError, hl]
  subst hfields
  rw [childFieldsOk_append] at hcf
  have hcf1 : childFieldsOk pre = true := by
    rcases Bool.and_eq_true_iff.mp hcf with ⟨h1, -⟩
    exact h1
  have hcf2 : childFieldsOk ((k, c) :: post) = true := by
    rcases Bool.and_eq_true_iff.mp hcf with ⟨-, h2⟩
    exact h2
  have hvc : isErrorTree c = true := by
    simp [childFieldsOk, hk] at hcf2
    exact hcf2.1
  rw [h1, searchChildren_skip pre ((k, c) :: post) hcf1 hpre]
  obtain ⟨fs, rfl⟩ := isErrorTree_vobj c hvc
  rcases findFirstError_tree_spec (.vobj fs) hvc with ⟨-, m, hm, hne⟩ |
      ⟨ha, -⟩
  · constructor
    · have htr : foundTruthy (findFirstError (.vobj fs)) = true := by
        rw [hm]
        simpa [foundTruthy, jsTruthy] using not_isEmpty_of_ne m hne
      simp [searchChildren, hk, jsTruthy, jsTypeofObject, htr]
    · rw [hm]
      simp
  · rw [ha] at hc
    cases hc

/-- Witness for C1: the first sibling is error-free, the second holds a
deeply nested message, which is returned. -/
theorem c1_first_erroring_child_wins_witness :
    (findFirstError (.vobj [("a", .vobj []),
        ("b", .vobj [("x", .vobj [("__errors", .varr [.vstr "Deep"])])])]) =
      findFirstError
        (.vobj [("x", .vobj [("__errors", .varr [.vstr "Deep"])])])) ∧
      findFirstError
        (.vobj [("x", .vobj [("__errors", .varr [.vstr "Deep"])])]) ≠
        none :=
  c1_first_erroring_child_wins
    [("a", .vobj []),
      ("b", .vobj [("x", .vobj [("__errors", .varr [.vstr "Deep"])])])]
    [("a", .vobj [])] [] "b"
    (.vobj [("x", .vobj [("__errors", .varr [.vstr "Deep"])])])
    (by decide) (Or.inl rfl) rfl (by decide) (by decide) (by decide)

/-- Witness for C8 at the initial state and an ordinary character. -/
theorem c8_scan_invariants_witness :
    SplitInv (splitStep initialSplitState [] [] 'x').1 ∧
      (initialSplitState.inQuotes = true →
        (splitStep initialSplitState [] [] 'x').1.angleDepth =
          initialSplitState.angleDepth) ∧
      ((splitStep initialSplitState [] [] 'x').1.inQuotes ≠
          initialSplitState.inQuotes → initialSplitState.angleDepth = 0) ∧
      ((splitStep initialSplitState [] [] 'x').1.escapeNext = true →
        initialSplitState.escapeNext = false →
        initialSplitState.inQuotes = true) ∧
      SplitInv initialSplitState :=
  c8_scan_invariants initialSplitState 'x' [] []
    ⟨by decide, by decide, by decide⟩
